import Mathlib

/-
Verification of the corpus-to-matrix pipeline (src/data_utils.py, class
CorpusProcessor) and of the scoring algorithms (src/metrics_utils.py,
classes Similarity and Coherence) of the topic-modelling toolkit.

Machine floats of the Python source are modelled by exact rationals (ℚ)
for the frequency thresholds and marginal probabilities, and by real
numbers (ℝ) for the logarithm-based NPMI scores.  Python dicts are
modelled by association lists that keep insertion order, matching CPython
dict semantics that the vocabulary construction relies on.
-/

set_option allowUnsafeReducibility true in
attribute [semireducible] Rat.add Rat.mul Rat.inv Rat.sub Rat.ofScientific

namespace DataUtils

/-- Lexicographic comparison of char code-point lists; this is the order in
which numpy sorts strings (`np.unique` returns its result sorted). -/
def charListLe : List Char → List Char → Bool
  | [], _ => true
  | _ :: _, [] => false
  | a :: as, b :: bs =>
    if a.val < b.val then true
    else if b.val < a.val then false
    else charListLe as bs

/-- Lexicographic comparison of strings by code points (numpy string order). -/
def strLe (a b : String) : Bool := charListLe a.data b.data

/-- Insert a string into a sorted list of strings. -/
def insertSorted (w : String) : List String → List String
  | [] => [w]
  | x :: xs => if strLe w x then w :: x :: xs else x :: insertSorted w xs

/-- Insertion sort of strings by `strLe`. -/
def sortStrings : List String → List String
  | [] => []
  | x :: xs => insertSorted x (sortStrings xs)

/-- Model of `np.unique(doc)` on a list of strings: the distinct elements of
`doc` in sorted order. -/
def npUnique (d : List String) : List String := sortStrings d.dedup

/-- Document frequency of a word: the number of documents of the corpus that
contain it at least once. -/
def docFreq (corpus : List (List String)) (w : String) : ℕ :=
  corpus.countP (fun d => decide (w ∈ d))

/-- The mutable attributes of a `CorpusProcessor` instance (`self` in the
Python source).  `maxRelativeFrequency`, `minAbsoluteFrequency` and
`stopWords` are set by `__init__`; the remaining fields are written by the
steps of `process`.  The word-frequency dict `self.words_in_corpus` is an
association list in insertion order; `entries` holds the
`(row, col, data)` coordinate triples handed to `csr_matrix`. -/
structure CPState where
  maxRelativeFrequency : ℚ
  minAbsoluteFrequency : ℕ
  stopWords : List String
  D : ℕ
  corpus : List (List String)
  wordsInCorpus : List (String × ℕ)
  excludedWords : List (String × ℕ)
  wordsInVocab : List String
  W : ℕ
  documents : List (List String)
  entries : List (ℕ × ℕ × ℕ)
  shape : ℕ × ℕ

/-- State right after `__init__(max_relative_frequency, min_absolute_frequency,
stop_words)`: only the three configuration attributes are meaningful, the
other fields are placeholders that `process` overwrites.  When `stop_words`
is `None` the Python constructor loads `data/stop_words_en.txt`; that file is
external, so the stopword list is always a parameter here. -/
def initState (maxRel : ℚ) (minAbs : ℕ) (stop : List String) : CPState :=
  ⟨maxRel, minAbs, stop, 0, [], [], [], [], 0, [], [], (0, 0)⟩

/-- One iteration of the dict update in `_words_in_corpus`: bump the count of
`w` if present, else append it with count 1 (dict insertion order). -/
def incrWord (t : List (String × ℕ)) (w : String) : List (String × ℕ) :=
  if w ∈ t.map Prod.fst then
    t.map (fun p => if p.1 = w then (p.1, p.2 + 1) else p)
  else
    t ++ [(w, 1)]

/-- The word-frequency table built by `_words_in_corpus`: scan documents in
corpus order and, inside each document, the words of `np.unique(doc)`. -/
def wordsInCorpusTable (corpus : List (List String)) : List (String × ℕ) :=
  corpus.foldl (fun t d => (npUnique d).foldl incrWord t) []

/-- Method `_words_in_corpus`. -/
def wordsInCorpusStep (s : CPState) : CPState :=
  { s with wordsInCorpus := wordsInCorpusTable s.corpus }

/-- The frequency test of `_is_out_of_frequency`, with the divisor of the
relative-frequency test made explicit as the `D` argument. -/
def isOutOfFrequencyB (maxRel : ℚ) (minAbs D n : ℕ) : Bool :=
  decide ((n : ℚ) / (D : ℚ) ≥ maxRel) || decide (n ≤ minAbs)

/-- Method `_is_out_of_frequency(document_count)`: reads `self.D` at call
time. -/
def CPState.isOutOfFrequency (s : CPState) (documentCount : ℕ) : Bool :=
  isOutOfFrequencyB s.maxRelativeFrequency s.minAbsoluteFrequency s.D documentCount

/-- Method `_is_stop_word(word)`. -/
def CPState.isStopWord (s : CPState) (w : String) : Bool :=
  decide (w ∈ s.stopWords)

/-- The exclusion test of `_is_out_of_vocab` with all read attributes explicit. -/
def isOutOfVocabB (stop : List String) (maxRel : ℚ) (minAbs D : ℕ)
    (w : String) (n : ℕ) : Bool :=
  decide (w ∈ stop) || isOutOfFrequencyB maxRel minAbs D n

/-- Method `_is_out_of_vocab(word, document_count)`. -/
def CPState.isOutOfVocab (s : CPState) (w : String) (documentCount : ℕ) : Bool :=
  s.isStopWord w || s.isOutOfFrequency documentCount

/-- Method `_filter_words`: collect the failing entries into
`excluded_words`, then pop them from `words_in_corpus` (the surviving
entries keep their relative insertion order). -/
def filterWordsStep (s : CPState) : CPState :=
  { s with
    excludedWords := s.wordsInCorpus.filter (fun p => s.isOutOfVocab p.1 p.2),
    wordsInCorpus := s.wordsInCorpus.filter (fun p => !(s.isOutOfVocab p.1 p.2)) }

/-- Method `_create_vocab`: `words_in_vocab = list(words_in_corpus.keys())`,
`vocab = {i: word}` (determined by the list), `W = len(vocab)`. -/
def createVocabStep (s : CPState) : CPState :=
  { s with
    wordsInVocab := s.wordsInCorpus.map Prod.fst,
    W := (s.wordsInCorpus.map Prod.fst).length }

/-- Method `_refine_document(doc)`: keep the tokens that are keys of the
(filtered) `words_in_corpus` dict. -/
def CPState.refineDocument (s : CPState) (doc : List String) : List String :=
  doc.filter (fun w => decide (w ∈ s.wordsInCorpus.map Prod.fst))

/-- Method `_build_documents`: refine every original document, keep the
nonempty ones in order, and overwrite `self.D` with their number. -/
def buildDocumentsStep (s : CPState) : CPState :=
  { s with
    documents := (s.corpus.map s.refineDocument).filter (fun d => !d.isEmpty),
    D := ((s.corpus.map s.refineDocument).filter (fun d => !d.isEmpty)).length }

/-- Method `_get_word_id(word)`: `words_in_vocab.index(word)`.  Python
`list.index` raises on a missing word; the source only calls it on members
(proved below), where `List.indexOf` agrees with it. -/
def CPState.getWordId (s : CPState) (w : String) : ℕ :=
  s.wordsInVocab.indexOf w

/-- Method `_vectorize`: for each surviving document (in order) emit one
`(row, col, data)` triple per distinct word — `np.unique(doc,
return_counts=True)` gives the distinct words with their in-document
occurrence counts — and record the `csr_matrix` shape `(self.D, self.W)`. -/
def vectorizeStep (s : CPState) : CPState :=
  { s with
    entries := s.documents.enum.flatMap
      (fun p => (npUnique p.2).map (fun w => (p.1, s.getWordId w, p.2.count w))),
    shape := (s.D, s.W) }

/-- Method `process(corpus)`: set `self.D = len(corpus)` and `self.corpus`,
then run the five steps in source order. -/
def process (s : CPState) (corpus : List (List String)) : CPState :=
  vectorizeStep (buildDocumentsStep (createVocabStep (filterWordsStep
    (wordsInCorpusStep { s with D := corpus.length, corpus := corpus }))))

/-- Row sum of the assembled document-term matrix: `csr_matrix` sums the
data values of the triples landing on row `r` (no duplicate coordinates are
emitted, one triple per distinct word of the document). -/
def rowSum (s : CPState) (r : ℕ) : ℕ :=
  ((s.entries.filter (fun e => e.1 == r)).map (fun e => e.2.2)).sum

/-- Association-list lookup, the model of reading `self.words_in_corpus[w]`. -/
def lookupW (t : List (String × ℕ)) (w : String) : Option ℕ :=
  (t.find? (fun p => p.1 == w)).map Prod.snd

/-- First-occurrence deduplication relative to an already-seen list: keeps
the first occurrence of every element not in `seen`, in scan order.  This is
the key order of a dict populated by repeated `d[k] = ...` updates. -/
def keepFirsts (seen : List String) : List String → List String
  | [] => []
  | w :: ws => if w ∈ seen then keepFirsts seen ws else w :: keepFirsts (w :: seen) ws

/-- The filtered word-frequency table of a `process` run, as a function of
the configuration and the corpus (the state of `words_in_corpus` after
`_filter_words`). -/
def filteredTable (stop : List String) (maxRel : ℚ) (minAbs : ℕ)
    (corpus : List (List String)) : List (String × ℕ) :=
  (wordsInCorpusTable corpus).filter
    (fun p => !(isOutOfVocabB stop maxRel minAbs corpus.length p.1 p.2))

/-- The excluded-words table of a `process` run. -/
def excludedTable (stop : List String) (maxRel : ℚ) (minAbs : ℕ)
    (corpus : List (List String)) : List (String × ℕ) :=
  (wordsInCorpusTable corpus).filter
    (fun p => isOutOfVocabB stop maxRel minAbs corpus.length p.1 p.2)

/-- The vocabulary list of a `process` run: the word of id `i` is entry `i`. -/
def vocabList (stop : List String) (maxRel : ℚ) (minAbs : ℕ)
    (corpus : List (List String)) : List String :=
  (filteredTable stop maxRel minAbs corpus).map Prod.fst

/-- The refined documents of a `process` run (before empty ones are dropped). -/
def refinedDocs (stop : List String) (maxRel : ℚ) (minAbs : ℕ)
    (corpus : List (List String)) : List (List String) :=
  corpus.map (fun d => d.filter
    (fun w => decide (w ∈ vocabList stop maxRel minAbs corpus)))

/-- The surviving documents of a `process` run. -/
def keptDocs (stop : List String) (maxRel : ℚ) (minAbs : ℕ)
    (corpus : List (List String)) : List (List String) :=
  (refinedDocs stop maxRel minAbs corpus).filter (fun d => !d.isEmpty)

/-- The coordinate triples of a `process` run. -/
def matrixEntries (stop : List String) (maxRel : ℚ) (minAbs : ℕ)
    (corpus : List (List String)) : List (ℕ × ℕ × ℕ) :=
  (keptDocs stop maxRel minAbs corpus).enum.flatMap
    (fun p => (npUnique p.2).map
      (fun w => (p.1, (vocabList stop maxRel minAbs corpus).indexOf w, p.2.count w)))

/-- The corpus of the spec's end-to-end example (§8), pre-tokenized. -/
def corpusB : List (List String) :=
  [["cat", "dog"], ["dog", "bird"], ["cat", "bird", "dog"]]

/-- A two-document corpus whose first document lists its words in
anti-alphabetical order. -/
def corpusA : List (List String) := [["dog", "cat"], ["bird"]]

end DataUtils

namespace MetricsUtils

/-- Binarisation `X[X > 0] = 1` of the document-term count matrix performed
at the start of `Coherence.get_marginals`. -/
def binarize {D W : ℕ} (X : Fin D → Fin W → ℕ) (d : Fin D) (w : Fin W) : ℚ :=
  if 0 < X d w then 1 else 0

/-- Column sums `nw = X.sum(axis=0)` of the binarised matrix: the number of
documents containing each word. -/
def nw {D W : ℕ} (X : Fin D → Fin W → ℕ) (w : Fin W) : ℚ :=
  ∑ d, binarize X d w

/-- Word presence probabilities `pw = nw / D` from `get_marginals`. -/
def pw {D W : ℕ} (X : Fin D → Fin W → ℕ) (w : Fin W) : ℚ :=
  nw X w / (D : ℚ)

/-- Co-presence counts `coo = Xᵀ·X` of the binarised matrix: entry `(i, j)`
is the number of documents containing both word `i` and word `j`. -/
def coo {D W : ℕ} (X : Fin D → Fin W → ℕ) (i j : Fin W) : ℚ :=
  ∑ d, binarize X d i * binarize X d j

/-- Co-presence probabilities `pcoo = coo / D` from `get_marginals`. -/
def pcoo {D W : ℕ} (X : Fin D → Fin W → ℕ) (i j : Fin W) : ℚ :=
  coo X i j / (D : ℚ)

/-- Method `Coherence.get_npmi(ix, jx)`: when `pcoo[ix, jx] > 0` return
`log(pcoo / (pw[ix] * pw[jx])) / (-log pcoo)`, otherwise the sentinel `-1`. -/
noncomputable def getNpmi {D W : ℕ} (X : Fin D → Fin W → ℕ) (i j : Fin W) : ℝ :=
  if 0 < pcoo X i j then
    Real.log ((pcoo X i j / (pw X i * pw X j) : ℚ) : ℝ) /
      (- Real.log ((pcoo X i j : ℚ) : ℝ))
  else
    -1

/-- The index pairs scanned by the nested loops of `get_topic_coherence`:
`i` ranges over positions, `j` over the later positions. -/
def allPairs {α : Type} : List α → List (α × α)
  | [] => []
  | x :: rest => rest.map (fun y => (x, y)) ++ allPairs rest

/-- Method `Coherence.get_topic_coherence(word_indexes)`: collect the NPMI
of every position pair and return `np.mean` of the collected scores.
`np.mean` of an empty list is NaN (with a runtime warning), modelled here as
`none`; a nonempty list gives its arithmetic mean. -/
noncomputable def getTopicCoherence {D W : ℕ} (X : Fin D → Fin W → ℕ)
    (wordIndexes : List (Fin W)) : Option ℝ :=
  let scores := (allPairs wordIndexes).map (fun p => getNpmi X p.1 p.2)
  if scores.length = 0 then none else some (scores.sum / (scores.length : ℝ))

/-- Dot product of two rows (rows of possibly differing length are zipped,
which never happens on a rectangular topic-word matrix). -/
def dotL (u v : List ℝ) : ℝ := (List.zipWith (· * ·) u v).sum

/-- Cosine similarity between two rows, as computed by
`sklearn.metrics.pairwise.cosine_similarity` on nonzero rows. -/
noncomputable def cosineSim (u v : List ℝ) : ℝ :=
  dotL u v / (Real.sqrt (dotL u u) * Real.sqrt (dotL v v))

/-- Method `Similarity.get_similarity(topic_index)`: compare row
`topic_index` against every other row (`np.delete` removes that row).  When
the topic-word matrix has a single row the deleted matrix is empty and
sklearn raises before any score is produced; the model then returns the
empty score list. -/
noncomputable def getSimilarity (topicWord : List (List ℝ)) (k : ℕ) : List ℝ :=
  (topicWord.eraseIdx k).map (fun v => cosineSim (topicWord.getD k []) v)

/-- Arithmetic mean, `np.mean` on a nonempty list. -/
noncomputable def meanL (l : List ℝ) : ℝ := l.sum / (l.length : ℝ)

/-- Maximum, `np.max` on a nonempty list (`np.max` raises on an empty one;
the code only reaches it after sklearn accepted a nonempty score array). -/
noncomputable def maxL (l : List ℝ) : ℝ := l.foldr max 0

/-- Method `Similarity.model_similarity(type)`: for each `k` in
`range(self.K)` aggregate the scores of `get_similarity(k)` by mean, or by
max when `type == "max"`. -/
noncomputable def modelSimilarity (useMax : Bool) (topicWord : List (List ℝ)) :
    List ℝ :=
  (List.range topicWord.length).map (fun k =>
    if useMax then maxL (getSimilarity topicWord k)
    else meanL (getSimilarity topicWord k))

/-- A 2×2 document-term matrix: document 0 contains only word 0, document 1
contains both words. -/
def Xco : Fin 2 → Fin 2 → ℕ := fun d i => if d = 0 ∧ i = 1 then 0 else 1

/-- A 1×2 document-term matrix whose single document contains both words, so
the pair (0, 1) co-occurs in every document. -/
def Xall : Fin 1 → Fin 2 → ℕ := fun _ _ => 1

end MetricsUtils

open DataUtils MetricsUtils

/-- The final `excluded_words` dict of a `process` run, expressed through the
standalone table functions; the divisor of the relative-frequency test is the
length of the input corpus. -/
theorem process_excludedWords (s : CPState) (corpus : List (List String)) :
    (process s corpus).excludedWords
      = excludedTable s.stopWords s.maxRelativeFrequency s.minAbsoluteFrequency
          corpus := rfl

/-- The final (filtered) `words_in_corpus` dict of a `process` run. -/
theorem process_wordsInCorpus (s : CPState) (corpus : List (List String)) :
    (process s corpus).wordsInCorpus
      = filteredTable s.stopWords s.maxRelativeFrequency s.minAbsoluteFrequency
          corpus := rfl

/-- The final `words_in_vocab` list of a `process` run. -/
theorem process_wordsInVocab (s : CPState) (corpus : List (List String)) :
    (process s corpus).wordsInVocab
      = vocabList s.stopWords s.maxRelativeFrequency s.minAbsoluteFrequency
          corpus := rfl

/-- The final vocabulary size `W` of a `process` run. -/
theorem process_W (s : CPState) (corpus : List (List String)) :
    (process s corpus).W
      = (vocabList s.stopWords s.maxRelativeFrequency s.minAbsoluteFrequency
          corpus).length := rfl

/-- The final `documents` list of a `process` run. -/
theorem process_documents (s : CPState) (corpus : List (List String)) :
    (process s corpus).documents
      = keptDocs s.stopWords s.maxRelativeFrequency s.minAbsoluteFrequency
          corpus := rfl

/-- The final (overwritten) document count `D` of a `process` run. -/
theorem process_D (s : CPState) (corpus : List (List String)) :
    (process s corpus).D
      = (keptDocs s.stopWords s.maxRelativeFrequency s.minAbsoluteFrequency
          corpus).length := rfl

/-- The final coordinate triples of a `process` run. -/
theorem process_entries (s : CPState) (corpus : List (List String)) :
    (process s corpus).entries
      = matrixEntries s.stopWords s.maxRelativeFrequency s.minAbsoluteFrequency
          corpus := rfl

/-- The final matrix shape of a `process` run. -/
theorem process_shape (s : CPState) (corpus : List (List String)) :
    (process s corpus).shape
      = ((keptDocs s.stopWords s.maxRelativeFrequency s.minAbsoluteFrequency
            corpus).length,
         (vocabList s.stopWords s.maxRelativeFrequency s.minAbsoluteFrequency
            corpus).length) := rfl

/-- C1 counterexample: in the corpus `[["dog","cat"],["bird"]]` (no
stopwords, `max_relative_frequency = 1`, `min_absolute_frequency = 0`) the
token "dog" first appears strictly before "cat" in the corpus scan
(documents in order, tokens in document order), all words survive
filtering, yet "cat" receives the smaller id: `np.unique` inserts each
document's distinct tokens in sorted order, not in token order. -/
theorem c1_counterexample :
    corpusA.flatten.indexOf "dog" < corpusA.flatten.indexOf "cat"
    ∧ "dog" ∈ (process (initState 1 0 []) corpusA).wordsInVocab
    ∧ "cat" ∈ (process (initState 1 0 []) corpusA).wordsInVocab
    ∧ (process (initState 1 0 []) corpusA).getWordId "cat"
        < (process (initState 1 0 []) corpusA).getWordId "dog" := by
  decide

/-- C2 counterexample: on the spec's example corpus with
`max_relative_frequency = 1.0` and `min_absolute_frequency = 0`, the word
"dog" has document frequency 3 out of 3 documents, so `3/3 ≥ 1.0` excludes
it: the vocabulary has 2 words, not 3, and the matrix shape is `(3, 2)`,
not `(3, 3)`. -/
theorem c2_counterexample :
    "dog" ∉ (process (initState 1 0 []) corpusB).wordsInVocab
    ∧ (process (initState 1 0 []) corpusB).W = 2
    ∧ (process (initState 1 0 []) corpusB).shape = (3, 2) := by
  decide

/-- C2 amended: on the example corpus the document frequencies are cat=2,
dog=3, bird=2; "dog" (relative frequency exactly 1.0) is excluded by the
inclusive `>=` test, so the vocabulary is `["cat", "bird"]`, the matrix has
shape `(3, 2)` and its row sums are `[1, 1, 2]`. -/
theorem c2_amended :
    docFreq corpusB "cat" = 2 ∧ docFreq corpusB "dog" = 3
    ∧ docFreq corpusB "bird" = 2
    ∧ (process (initState 1 0 []) corpusB).wordsInVocab = ["cat", "bird"]
    ∧ (process (initState 1 0 []) corpusB).shape = (3, 2)
    ∧ rowSum (process (initState 1 0 []) corpusB) 0 = 1
    ∧ rowSum (process (initState 1 0 []) corpusB) 1 = 1
    ∧ rowSum (process (initState 1 0 []) corpusB) 2 = 2 := by
  decide

/-- C4: the word filter of `process` evaluates every relative-frequency
comparison with divisor `D0 = len(corpus)` captured before any documents
are dropped (the predicate below carries `corpus.length`), even though the
stored document count ends up overwritten with the number of surviving
documents, which never exceeds the original count. -/
theorem c4_thresholds_use_original_corpus_size (s : CPState)
    (corpus : List (List String)) :
    (process s corpus).excludedWords
        = (wordsInCorpusTable corpus).filter
            (fun p => isOutOfVocabB s.stopWords s.maxRelativeFrequency
              s.minAbsoluteFrequency corpus.length p.1 p.2)
    ∧ (process s corpus).D = (process s corpus).documents.length
    ∧ (process s corpus).documents.length ≤ corpus.length := by
  refine ⟨rfl, rfl, ?_⟩
  have h1 : (process s corpus).documents.length
      ≤ (refinedDocs s.stopWords s.maxRelativeFrequency s.minAbsoluteFrequency
          corpus).length :=
    List.length_filter_le _ _
  simpa [refinedDocs] using h1

/-- C8: `get_topic_coherence` on fewer than two word indexes produces zero
index pairs, so the collected score list is empty and the function returns
`np.mean` of an empty list — NaN, modelled as `none` — instead of raising an
"insufficient words" error; shown on a concrete matrix for zero and one
word index. -/
theorem c8_empty_mean_not_error :
    allPairs ([] : List (Fin 2)) = []
    ∧ allPairs [(0 : Fin 2)] = []
    ∧ getTopicCoherence Xall [] = none
    ∧ getTopicCoherence Xall [0] = none :=
  ⟨rfl, rfl, rfl, rfl⟩

/-- C9: `model_similarity` with a 0-topic matrix iterates over
`range(0)` and silently returns the empty list, in both aggregation modes,
rather than surfacing a configuration error. -/
theorem c9_no_topics_silent_empty :
    modelSimilarity false ([] : List (List ℝ)) = []
    ∧ modelSimilarity true ([] : List (List ℝ)) = [] :=
  ⟨rfl, rfl⟩

/-- C10: a `CorpusProcessor` built with its default arguments
(`max_relative_frequency = 0.0`, `min_absolute_frequency = 0`, any stopword
list) excludes every word of any non-empty corpus, because every document
frequency satisfies `df / D0 >= 0.0`; the vocabulary is empty, every
document is dropped, and the matrix shape is `(0, 0)`. -/
theorem c10_default_config_empty_vocab (stop : List String)
    (corpus : List (List String)) (h : corpus ≠ []) :
    (process (initState 0 0 stop) corpus).wordsInVocab = []
    ∧ (process (initState 0 0 stop) corpus).W = 0
    ∧ (process (initState 0 0 stop) corpus).documents = []
    ∧ (process (initState 0 0 stop) corpus).shape = (0, 0)
    ∧ (process (initState 0 0 stop) corpus).entries = [] := by
  have hfreq : ∀ n D : ℕ, isOutOfFrequencyB 0 0 D n = true := by
    intro n D
    have hnn : ((n : ℚ) / (D : ℚ) ≥ 0) :=
      div_nonneg (Nat.cast_nonneg n) (Nat.cast_nonneg D)
    simp [isOutOfFrequencyB, hnn]
  have htab : filteredTable stop 0 0 corpus = [] := by
    refine List.filter_eq_nil_iff.mpr ?_
    intro p hp
    simp [isOutOfVocabB, hfreq]
  have hvoc : vocabList stop 0 0 corpus = [] := by
    simp [vocabList, htab]
  have hkept : keptDocs stop 0 0 corpus = [] := by
    refine List.filter_eq_nil_iff.mpr ?_
    intro d hd
    rcases List.mem_map.mp hd with ⟨d0, _, hd0⟩
    simp [hvoc] at hd0
    simp [← hd0]
  have e1 : (process (initState 0 0 stop) corpus).wordsInVocab
      = vocabList stop 0 0 corpus := rfl
  have e2 : (process (initState 0 0 stop) corpus).W
      = (vocabList stop 0 0 corpus).length := rfl
  have e3 : (process (initState 0 0 stop) corpus).documents
      = keptDocs stop 0 0 corpus := rfl
  have e4 : (process (initState 0 0 stop) corpus).shape
      = ((keptDocs stop 0 0 corpus).length, (vocabList stop 0 0 corpus).length) :=
    rfl
  have e5 : (process (initState 0 0 stop) corpus).entries
      = matrixEntries stop 0 0 corpus := rfl
  refine ⟨?_, ?_, ?_, ?_, ?_⟩
  · exact e1.trans hvoc
  · exact e2.trans (by simp [hvoc])
  · exact e3.trans hkept
  · exact e4.trans (by simp [hvoc, hkept])
  · exact e5.trans (by simp [matrixEntries, hkept])

namespace DataUtils

lemma insertSorted_perm (w : String) (l : List String) :
    List.Perm (insertSorted w l) (w :: l) := by
  induction l with
  | nil => rfl
  | cons x xs ih =>
    unfold insertSorted
    split
    · rfl
    · exact (ih.cons x).trans (List.Perm.swap w x xs)

lemma sortStrings_perm (l : List String) : List.Perm (sortStrings l) l := by
  induction l with
  | nil => rfl
  | cons x xs ih => exact (insertSorted_perm x (sortStrings xs)).trans (ih.cons x)

lemma mem_npUnique {w : String} {d : List String} : w ∈ npUnique d ↔ w ∈ d := by
  unfold npUnique
  rw [(sortStrings_perm d.dedup).mem_iff, List.mem_dedup]

lemma npUnique_nodup (d : List String) : (npUnique d).Nodup :=
  ((sortStrings_perm d.dedup).nodup_iff).mpr d.nodup_dedup

lemma lookupW_cons_pos {p : String × ℕ} {t : List (String × ℕ)} {w : String}
    (h : p.1 = w) : lookupW (p :: t) w = some p.2 := by
  simp [lookupW, List.find?_cons_of_pos, h]

lemma lookupW_cons_neg {p : String × ℕ} {t : List (String × ℕ)} {w : String}
    (h : p.1 ≠ w) : lookupW (p :: t) w = lookupW t w := by
  simp only [lookupW]
  rw [List.find?_cons_of_neg]
  simp [h]

lemma lookupW_isSome {t : List (String × ℕ)} {w : String} :
    (lookupW t w).isSome ↔ w ∈ t.map Prod.fst := by
  induction t with
  | nil => simp [lookupW]
  | cons p t ih =>
    by_cases hp : p.1 = w
    · rw [lookupW_cons_pos hp]
      simp only [List.map_cons, Option.isSome_some, true_iff]
      exact List.mem_cons.mpr (Or.inl hp.symm)
    · rw [lookupW_cons_neg hp, ih]
      simp only [List.map_cons, List.mem_cons]
      constructor
      · exact Or.inr
      · rintro (h1 | h1)
        · exact absurd h1.symm hp
        · exact h1

lemma lookupW_eq_none {t : List (String × ℕ)} {w : String} :
    lookupW t w = none ↔ w ∉ t.map Prod.fst := by
  rw [← lookupW_isSome]
  cases lookupW t w <;> simp

lemma lookupW_append_none {t1 : List (String × ℕ)} (t2 : List (String × ℕ))
    {w : String} (h : lookupW t1 w = none) :
    lookupW (t1 ++ t2) w = lookupW t2 w := by
  induction t1 with
  | nil => rfl
  | cons p t ih =>
    by_cases hp : p.1 = w
    · rw [lookupW_cons_pos hp] at h
      exact absurd h (by simp)
    · rw [lookupW_cons_neg hp] at h
      rw [List.cons_append, lookupW_cons_neg hp]
      exact ih h

lemma lookupW_append_some {t1 : List (String × ℕ)} (t2 : List (String × ℕ))
    {w : String} {n : ℕ} (h : lookupW t1 w = some n) :
    lookupW (t1 ++ t2) w = some n := by
  induction t1 with
  | nil => simp [lookupW] at h
  | cons p t ih =>
    by_cases hp : p.1 = w
    · rw [lookupW_cons_pos hp] at h
      rw [List.cons_append, lookupW_cons_pos hp]
      exact h
    · rw [lookupW_cons_neg hp] at h
      rw [List.cons_append, lookupW_cons_neg hp]
      exact ih h

lemma lookupW_bump {t : List (String × ℕ)} {w : String}
    (h : w ∈ t.map Prod.fst) :
    lookupW (t.map (fun p => if p.1 = w then (p.1, p.2 + 1) else p)) w
      = some ((lookupW t w).getD 0 + 1) := by
  induction t with
  | nil => simp at h
  | cons p t ih =>
    by_cases hp : p.1 = w
    · have h2 : ((p.1, p.2 + 1) : String × ℕ).1 = w := hp
      simp only [List.map_cons, if_pos hp]
      rw [lookupW_cons_pos h2, lookupW_cons_pos hp]
      rfl
    · have hmem : w ∈ t.map Prod.fst := by
        simp only [List.map_cons] at h
        rcases List.mem_cons.mp h with h1 | h1
        · exact absurd h1.symm hp
        · exact h1
      simp only [List.map_cons, if_neg hp]
      rw [lookupW_cons_neg hp, lookupW_cons_neg hp]
      exact ih hmem

lemma lookupW_bump_other {t : List (String × ℕ)} {w w2 : String} (hne : w2 ≠ w) :
    lookupW (t.map (fun p => if p.1 = w then (p.1, p.2 + 1) else p)) w2
      = lookupW t w2 := by
  induction t with
  | nil => rfl
  | cons p t ih =>
    by_cases hp : p.1 = w
    · have h2 : ((p.1, p.2 + 1) : String × ℕ).1 ≠ w2 := by
        rw [hp]
        exact fun hh => hne hh.symm
      have h3 : p.1 ≠ w2 := by
        rw [hp]
        exact fun hh => hne hh.symm
      simp only [List.map_cons, if_pos hp]
      rw [lookupW_cons_neg h2, lookupW_cons_neg h3]
      exact ih
    · simp only [List.map_cons, if_neg hp]
      by_cases hq : p.1 = w2
      · rw [lookupW_cons_pos hq, lookupW_cons_pos hq]
      · rw [lookupW_cons_neg hq, lookupW_cons_neg hq]
        exact ih

lemma lookupW_incr_self (t : List (String × ℕ)) (w : String) :
    lookupW (incrWord t w) w = some ((lookupW t w).getD 0 + 1) := by
  unfold incrWord
  split
  · exact lookupW_bump (by assumption)
  · next h =>
    rw [lookupW_append_none _ (lookupW_eq_none.mpr h), lookupW_cons_pos rfl,
      lookupW_eq_none.mpr h]
    rfl

lemma lookupW_incr_other (t : List (String × ℕ)) (w w2 : String) (hne : w2 ≠ w) :
    lookupW (incrWord t w) w2 = lookupW t w2 := by
  unfold incrWord
  split
  · exact lookupW_bump_other hne
  · have hw : ((w, 1) : String × ℕ).1 ≠ w2 := fun hh => hne hh.symm
    cases hq : lookupW t w2 with
    | none =>
      rw [lookupW_append_none _ hq, lookupW_cons_neg hw]
      rfl
    | some n => exact lookupW_append_some _ hq

end DataUtils

namespace DataUtils

lemma keys_incr (t : List (String × ℕ)) (w : String) :
    (incrWord t w).map Prod.fst
      = if w ∈ t.map Prod.fst then t.map Prod.fst else t.map Prod.fst ++ [w] := by
  unfold incrWord
  split
  · rw [List.map_map]
    apply List.map_congr_left
    intro p hp
    by_cases hp1 : p.1 = w <;> simp [hp1]
  · simp

lemma lookupW_foldl_incr {ws : List String} (hnd : ws.Nodup)
    (t : List (String × ℕ)) (w : String) :
    lookupW (ws.foldl incrWord t) w
      = if w ∈ ws then some ((lookupW t w).getD 0 + 1) else lookupW t w := by
  induction ws generalizing t with
  | nil => simp
  | cons a ws ih =>
    have hna : a ∉ ws := (List.nodup_cons.mp hnd).1
    have hnd2 : ws.Nodup := (List.nodup_cons.mp hnd).2
    simp only [List.foldl_cons]
    by_cases hw : w = a
    · subst hw
      rw [ih hnd2, if_neg hna, if_pos (List.mem_cons_self w ws), lookupW_incr_self]
    · rw [ih hnd2]
      by_cases hin : w ∈ ws
      · rw [if_pos hin, if_pos (List.mem_cons_of_mem _ hin),
          lookupW_incr_other _ _ _ hw]
      · rw [if_neg hin, if_neg (by simp [hw, hin]), lookupW_incr_other _ _ _ hw]

lemma keys_foldl_incr {ws : List String} (hnd : ws.Nodup)
    (t : List (String × ℕ)) :
    (ws.foldl incrWord t).map Prod.fst
      = t.map Prod.fst ++ ws.filter (fun w => !(decide (w ∈ t.map Prod.fst))) := by
  induction ws generalizing t with
  | nil => simp
  | cons a ws ih =>
    have hna : a ∉ ws := (List.nodup_cons.mp hnd).1
    have hnd2 : ws.Nodup := (List.nodup_cons.mp hnd).2
    simp only [List.foldl_cons, List.filter_cons]
    by_cases ha : a ∈ t.map Prod.fst
    · rw [ih hnd2, keys_incr, if_pos ha]
      simp [ha]
    · rw [ih hnd2, keys_incr, if_neg ha]
      have hfc : ws.filter (fun w => !(decide (w ∈ t.map Prod.fst ++ [a])))
          = ws.filter (fun w => !(decide (w ∈ t.map Prod.fst))) := by
        apply List.filter_congr
        intro x hx
        have hxa : x ≠ a := fun hh => hna (hh ▸ hx)
        simp [List.mem_append, hxa]
      rw [hfc]
      simp [ha, List.append_assoc]

lemma not_mem_seen_of_mem_keepFirsts {s l : List String} {x : String}
    (h : x ∈ keepFirsts s l) : x ∉ s := by
  induction l generalizing s with
  | nil => simp [keepFirsts] at h
  | cons w ws ih =>
    unfold keepFirsts at h
    by_cases hw : w ∈ s
    · rw [if_pos hw] at h
      exact ih h
    · rw [if_neg hw] at h
      rcases List.mem_cons.mp h with h1 | h1
      · exact h1 ▸ hw
      · exact fun hs => (ih h1) (List.mem_cons_of_mem _ hs)

lemma keepFirsts_nodup (s l : List String) : (keepFirsts s l).Nodup := by
  induction l generalizing s with
  | nil => exact List.nodup_nil
  | cons w ws ih =>
    unfold keepFirsts
    by_cases hw : w ∈ s
    · rw [if_pos hw]
      exact ih s
    · rw [if_neg hw]
      refine List.nodup_cons.mpr ⟨?_, ih (w :: s)⟩
      intro hmem
      exact not_mem_seen_of_mem_keepFirsts hmem (List.mem_cons_self w s)

lemma mem_keepFirsts {s l : List String} {x : String} :
    x ∈ keepFirsts s l ↔ x ∈ l ∧ x ∉ s := by
  induction l generalizing s with
  | nil => simp [keepFirsts]
  | cons w ws ih =>
    unfold keepFirsts
    by_cases hw : w ∈ s
    · rw [if_pos hw, ih]
      constructor
      · rintro ⟨h1, h2⟩
        exact ⟨List.mem_cons_of_mem _ h1, h2⟩
      · rintro ⟨h1, h2⟩
        rcases List.mem_cons.mp h1 with h3 | h3
        · exact absurd (h3 ▸ hw) h2
        · exact ⟨h3, h2⟩
    · rw [if_neg hw]
      constructor
      · intro h
        rcases List.mem_cons.mp h with h3 | h3
        · exact ⟨h3 ▸ List.mem_cons_self w ws, h3 ▸ hw⟩
        · have h4 := ih.mp h3
          exact ⟨List.mem_cons_of_mem _ h4.1,
            fun hs => h4.2 (List.mem_cons_of_mem _ hs)⟩
      · rintro ⟨h1, h2⟩
        by_cases hxw : x = w
        · exact hxw ▸ List.mem_cons_self w (keepFirsts (w :: s) ws)
        · rcases List.mem_cons.mp h1 with h3 | h3
          · exact absurd h3 hxw
          · refine List.mem_cons_of_mem _ (ih.mpr ⟨h3, ?_⟩)
            intro hs
            rcases List.mem_cons.mp hs with h5 | h5
            · exact hxw h5
            · exact h2 h5

lemma keepFirsts_congr {s1 s2 : List String} (l : List String)
    (h : ∀ x, x ∈ s1 ↔ x ∈ s2) : keepFirsts s1 l = keepFirsts s2 l := by
  induction l generalizing s1 s2 with
  | nil => rfl
  | cons w ws ih =>
    unfold keepFirsts
    by_cases hw : w ∈ s1
    · rw [if_pos hw, if_pos ((h w).mp hw)]
      exact ih h
    · rw [if_neg hw, if_neg (fun hh => hw ((h w).mpr hh))]
      congr 1
      apply ih
      intro x
      simp only [List.mem_cons, h x]

lemma keepFirsts_cons (s : List String) (w : String) (ws : List String) :
    keepFirsts s (w :: ws)
      = if w ∈ s then keepFirsts s ws else w :: keepFirsts (w :: s) ws := rfl

lemma keepFirsts_append (s l1 l2 : List String) :
    keepFirsts s (l1 ++ l2) = keepFirsts s l1 ++ keepFirsts (l1 ++ s) l2 := by
  induction l1 generalizing s with
  | nil => simp [keepFirsts]
  | cons w ws ih =>
    simp only [List.cons_append, keepFirsts_cons]
    by_cases hw : w ∈ s
    · rw [if_pos hw, if_pos hw, ih s]
      congr 1
      apply keepFirsts_congr
      intro x
      by_cases hx : x = w
      · subst hx
        simp [List.mem_append, hw]
      · simp [List.mem_append, List.mem_cons, hx]
    · rw [if_neg hw, if_neg hw, ih (w :: s)]
      simp only [List.cons_append]
      congr 2
      apply keepFirsts_congr
      intro x
      simp only [List.mem_append, List.mem_cons]
      constructor
      · rintro (h1 | h2 | h3)
        · exact Or.inr (Or.inl h1)
        · exact Or.inl h2
        · exact Or.inr (Or.inr h3)
      · rintro (h1 | h2 | h3)
        · exact Or.inr (Or.inl h1)
        · exact Or.inl h2
        · exact Or.inr (Or.inr h3)

lemma keepFirsts_eq_filter {l : List String} (hnd : l.Nodup) (s : List String) :
    keepFirsts s l = l.filter (fun w => !(decide (w ∈ s))) := by
  induction l generalizing s with
  | nil => rfl
  | cons w ws ih =>
    have hna : w ∉ ws := (List.nodup_cons.mp hnd).1
    have hnd2 : ws.Nodup := (List.nodup_cons.mp hnd).2
    unfold keepFirsts
    rw [List.filter_cons]
    by_cases hw : w ∈ s
    · rw [if_pos hw]
      simp only [hw, decide_True, Bool.not_true, Bool.false_eq_true, if_false]
      exact ih hnd2 s
    · rw [if_neg hw]
      simp only [hw, decide_False, Bool.not_false, if_true]
      congr 1
      rw [ih hnd2 (w :: s)]
      apply List.filter_congr
      intro x hx
      have hxw : x ≠ w := fun hh => hna (hh ▸ hx)
      simp [List.mem_cons, hxw]

end DataUtils

namespace DataUtils

lemma wordsInCorpusTable_append (cs : List (List String)) (d : List String) :
    wordsInCorpusTable (cs ++ [d])
      = (npUnique d).foldl incrWord (wordsInCorpusTable cs) := by
  simp [wordsInCorpusTable, List.foldl_append]

lemma docFreq_append (cs : List (List String)) (d : List String) (w : String) :
    docFreq (cs ++ [d]) w = docFreq cs w + (if w ∈ d then 1 else 0) := by
  simp only [docFreq, List.countP_append]
  congr 1
  by_cases hd : w ∈ d <;> simp [List.countP_cons, hd]

lemma lookupW_wordsInCorpusTable (cs : List (List String)) (w : String) :
    lookupW (wordsInCorpusTable cs) w
      = if 0 < docFreq cs w then some (docFreq cs w) else none := by
  induction cs using List.reverseRecOn with
  | nil => simp [wordsInCorpusTable, docFreq, lookupW]
  | append_singleton cs d ih =>
    rw [wordsInCorpusTable_append, lookupW_foldl_incr (npUnique_nodup d), ih,
      docFreq_append]
    by_cases hd : w ∈ d
    · rw [if_pos (mem_npUnique.mpr hd), if_pos hd]
      by_cases h0 : 0 < docFreq cs w
      · rw [if_pos h0]
        simp
      · have h00 : docFreq cs w = 0 := by omega
        rw [if_neg h0]
        simp [h00]
    · rw [if_neg (fun hh => hd (mem_npUnique.mp hh)), if_neg hd]
      simp

lemma keys_wordsInCorpusTable (cs : List (List String)) :
    (wordsInCorpusTable cs).map Prod.fst = keepFirsts [] (cs.flatMap npUnique) := by
  induction cs using List.reverseRecOn with
  | nil => rfl
  | append_singleton cs d ih =>
    rw [wordsInCorpusTable_append,
      keys_foldl_incr (npUnique_nodup d) (wordsInCorpusTable cs)]
    have hflat : (cs ++ [d]).flatMap npUnique
        = cs.flatMap npUnique ++ npUnique d := by
      simp [List.flatMap_append]
    rw [hflat, keepFirsts_append, ih]
    congr 1
    rw [keepFirsts_eq_filter (npUnique_nodup d)]
    apply List.filter_congr
    intro x hx
    have hiff : (x ∈ keepFirsts ([] : List String) (cs.flatMap npUnique))
        ↔ x ∈ cs.flatMap npUnique ++ ([] : List String) := by
      rw [mem_keepFirsts]
      simp
    rw [decide_eq_decide.mpr hiff]

lemma keys_table_nodup (cs : List (List String)) :
    ((wordsInCorpusTable cs).map Prod.fst).Nodup := by
  rw [keys_wordsInCorpusTable]
  exact keepFirsts_nodup _ _

lemma lookupW_eq_some_of_mem {t : List (String × ℕ)}
    (hnd : (t.map Prod.fst).Nodup) {p : String × ℕ} (hp : p ∈ t) :
    lookupW t p.1 = some p.2 := by
  induction t with
  | nil => simp at hp
  | cons q t ih =>
    simp only [List.map_cons, List.nodup_cons] at hnd
    rcases List.mem_cons.mp hp with h1 | h1
    · subst h1
      exact lookupW_cons_pos rfl
    · have hq : q.1 ≠ p.1 := by
        intro hh
        exact hnd.1 (hh ▸ List.mem_map.mpr ⟨p, h1, rfl⟩)
      rw [lookupW_cons_neg hq]
      exact ih hnd.2 h1

lemma mem_of_lookupW_eq_some {t : List (String × ℕ)} {w : String} {n : ℕ}
    (h : lookupW t w = some n) : (w, n) ∈ t := by
  unfold lookupW at h
  cases hf : t.find? (fun p => p.1 == w) with
  | none =>
    rw [hf] at h
    simp at h
  | some q =>
    rw [hf] at h
    have h1 := List.find?_some hf
    have h2 : q ∈ t := List.mem_of_find?_eq_some hf
    simp only [Option.map_some', Option.some.injEq] at h
    have h3 : q.1 = w := by simpa using h1
    have h4 : q = (w, n) := by
      cases q
      simp_all
    exact h4 ▸ h2

lemma mem_wordsInCorpusTable_iff {cs : List (List String)} {p : String × ℕ} :
    p ∈ wordsInCorpusTable cs
      ↔ (0 < docFreq cs p.1 ∧ p.2 = docFreq cs p.1) := by
  constructor
  · intro hp
    have hl := lookupW_eq_some_of_mem (keys_table_nodup cs) hp
    rw [lookupW_wordsInCorpusTable] at hl
    by_cases h0 : 0 < docFreq cs p.1
    · rw [if_pos h0] at hl
      exact ⟨h0, (Option.some.inj hl).symm⟩
    · rw [if_neg h0] at hl
      exact absurd hl (by simp)
  · rintro ⟨h0, h2⟩
    have hl : lookupW (wordsInCorpusTable cs) p.1 = some p.2 := by
      rw [lookupW_wordsInCorpusTable, if_pos h0, h2]
    have hm := mem_of_lookupW_eq_some hl
    simpa using hm

end DataUtils

/-- C3: a non-stopword word is excluded from the vocabulary exactly when its
document frequency df satisfies `df <= min_absolute_frequency` or
`df / D0 >= max_relative_frequency` (both boundaries inclusive, `D0` the
original corpus length); in particular `df = min_absolute_frequency` or
`df / D0 = max_relative_frequency` are excluded. -/
theorem c3_filter_boundary (maxRel : ℚ) (minAbs : ℕ) (stop : List String)
    (corpus : List (List String)) (w : String) (hw : w ∉ stop) :
    w ∉ (process (initState maxRel minAbs stop) corpus).wordsInVocab
      ↔ (docFreq corpus w ≤ minAbs
          ∨ (docFreq corpus w : ℚ) / (corpus.length : ℚ) ≥ maxRel) := by
  have hb : (process (initState maxRel minAbs stop) corpus).wordsInVocab
      = vocabList stop maxRel minAbs corpus := rfl
  rw [hb]
  have hmem : w ∈ vocabList stop maxRel minAbs corpus
      ↔ (0 < docFreq corpus w ∧
          (isOutOfVocabB stop maxRel minAbs corpus.length w
            (docFreq corpus w)) = false) := by
    unfold vocabList filteredTable
    rw [List.mem_map]
    constructor
    · rintro ⟨p, hp, hpw⟩
      rcases List.mem_filter.mp hp with ⟨hpt, hgp⟩
      rcases mem_wordsInCorpusTable_iff.mp hpt with ⟨h0, h2⟩
      subst hpw
      refine ⟨h0, ?_⟩
      rw [← h2]
      simpa using hgp
    · rintro ⟨h0, hg⟩
      refine ⟨(w, docFreq corpus w), List.mem_filter.mpr ⟨?_, ?_⟩, rfl⟩
      · exact mem_wordsInCorpusTable_iff.mpr ⟨h0, rfl⟩
      · simpa using hg
  rw [hmem]
  have hb2 : (isOutOfVocabB stop maxRel minAbs corpus.length w
        (docFreq corpus w)) = false
      ↔ ¬((docFreq corpus w : ℚ) / (corpus.length : ℚ) ≥ maxRel
          ∨ docFreq corpus w ≤ minAbs) := by
    simp [isOutOfVocabB, isOutOfFrequencyB, hw]
  rw [hb2]
  by_cases h0 : 0 < docFreq corpus w
  · simp only [h0, true_and, not_not]
    tauto
  · have h00 : docFreq corpus w = 0 := by omega
    rw [h00]
    constructor
    · intro _
      exact Or.inl (Nat.zero_le _)
    · intro _ hcon
      exact absurd hcon.1 (by omega)

/-- C3 witness: applied to the example corpus with no stopwords,
`max_relative_frequency = 1`, `min_absolute_frequency = 0` and the word
"cat" (document frequency 2 of 3). -/
theorem c3_filter_boundary_witness :
    "cat" ∉ (process (initState 1 0 []) corpusB).wordsInVocab
      ↔ (docFreq corpusB "cat" ≤ 0
          ∨ (docFreq corpusB "cat" : ℚ) / (corpusB.length : ℚ) ≥ 1) :=
  c3_filter_boundary 1 0 [] corpusB "cat" (by decide)

/-- C1 amended: vocabulary ids 0..W-1 follow the insertion order of the
word-frequency table, which scans documents in corpus order but inserts each
document's distinct tokens in sorted order (`np.unique` sorts); the id order
is therefore the first-occurrence order of `corpus.flatMap npUnique` (with
the excluded words dropped, order preserved), not the first-seen token
order within a document. -/
theorem c1_amended_insertion_order (maxRel : ℚ) (minAbs : ℕ)
    (stop : List String) (corpus : List (List String)) :
    (process (initState maxRel minAbs stop) corpus).wordsInVocab
      = (keepFirsts [] (corpus.flatMap npUnique)).filter
          (fun w => !(isOutOfVocabB stop maxRel minAbs corpus.length w
            (docFreq corpus w))) := by
  have hb : (process (initState maxRel minAbs stop) corpus).wordsInVocab
      = vocabList stop maxRel minAbs corpus := rfl
  rw [hb]
  unfold vocabList filteredTable
  have hcong : (wordsInCorpusTable corpus).filter
        (fun p => !(isOutOfVocabB stop maxRel minAbs corpus.length p.1 p.2))
      = (wordsInCorpusTable corpus).filter
        ((fun w => !(isOutOfVocabB stop maxRel minAbs corpus.length w
            (docFreq corpus w))) ∘ Prod.fst) := by
    apply List.filter_congr
    intro p hp
    rcases mem_wordsInCorpusTable_iff.mp hp with ⟨h0, h2⟩
    simp only [Function.comp_apply]
    rw [h2]
  rw [hcong, ← List.filter_map, keys_wordsInCorpusTable]

/-- C5: the document-term matrix of every `process` run has shape exactly
`(D_filtered, W)` where `D_filtered` counts the original documents that
retain at least one in-vocabulary word and `W` is the vocabulary size;
every row index below `D_filtered` receives at least one triple with a
positive count, and every emitted triple has `row < D_filtered` and
`col < W`. -/
theorem c5_matrix_invariants (s : CPState) (corpus : List (List String)) :
    (process s corpus).shape
        = ((keptDocs s.stopWords s.maxRelativeFrequency s.minAbsoluteFrequency
              corpus).length,
           (vocabList s.stopWords s.maxRelativeFrequency s.minAbsoluteFrequency
              corpus).length)
    ∧ (keptDocs s.stopWords s.maxRelativeFrequency s.minAbsoluteFrequency
          corpus).length
        = corpus.countP (fun d => !(d.filter (fun w => decide
            (w ∈ vocabList s.stopWords s.maxRelativeFrequency
              s.minAbsoluteFrequency corpus))).isEmpty)
    ∧ (∀ r, r < (keptDocs s.stopWords s.maxRelativeFrequency
          s.minAbsoluteFrequency corpus).length
        → ∃ e ∈ (process s corpus).entries, e.1 = r ∧ 0 < e.2.2)
    ∧ (∀ e ∈ (process s corpus).entries,
        e.1 < (keptDocs s.stopWords s.maxRelativeFrequency
          s.minAbsoluteFrequency corpus).length
        ∧ e.2.1 < (vocabList s.stopWords s.maxRelativeFrequency
          s.minAbsoluteFrequency corpus).length) := by
  refine ⟨rfl, ?_, ?_, ?_⟩
  · unfold keptDocs
    rw [← List.countP_eq_length_filter]
    unfold refinedDocs
    rw [List.countP_map]
    rfl
  · intro r hr
    set V := vocabList s.stopWords s.maxRelativeFrequency s.minAbsoluteFrequency
      corpus with hV
    set K := keptDocs s.stopWords s.maxRelativeFrequency s.minAbsoluteFrequency
      corpus with hK
    have hdK : K[r] ∈ K := List.getElem_mem hr
    have hne : K[r] ≠ [] := by
      have hfil := List.of_mem_filter hdK
      intro hnil
      rw [hnil] at hfil
      simp at hfil
    obtain ⟨w, hwd⟩ := List.exists_mem_of_ne_nil _ hne
    refine ⟨(r, V.indexOf w, K[r].count w), ?_, rfl, ?_⟩
    · rw [process_entries]
      unfold matrixEntries
      apply List.mem_flatMap.mpr
      refine ⟨(r, K[r]), ?_, ?_⟩
      · have hlen : r < K.enum.length := by simpa [List.enum_length] using hr
        have hm : K.enum[r] ∈ K.enum := List.getElem_mem hlen
        rw [List.getElem_enum] at hm
        exact hm
      · exact List.mem_map.mpr ⟨w, mem_npUnique.mpr hwd, rfl⟩
    · exact List.count_pos_iff.mpr hwd
  · intro e he
    set V := vocabList s.stopWords s.maxRelativeFrequency s.minAbsoluteFrequency
      corpus with hV
    set K := keptDocs s.stopWords s.maxRelativeFrequency s.minAbsoluteFrequency
      corpus with hK
    rw [process_entries] at he
    unfold matrixEntries at he
    rcases List.mem_flatMap.mp he with ⟨p, hp, h3⟩
    rcases List.mem_map.mp h3 with ⟨w, hwmem, hwe⟩
    rw [List.enum_eq_zip_range] at hp
    have h4 := List.of_mem_zip hp
    have hrow : p.1 < K.length := List.mem_range.mp h4.1
    have hdoc : p.2 ∈ K := h4.2
    have h5 : p.2 ∈ refinedDocs s.stopWords s.maxRelativeFrequency
        s.minAbsoluteFrequency corpus := List.mem_of_mem_filter hdoc
    rcases List.mem_map.mp h5 with ⟨d0, _, hd0⟩
    have hw2 : w ∈ p.2 := mem_npUnique.mp hwmem
    rw [← hd0] at hw2
    have hw3 := List.mem_filter.mp hw2
    have hwv : w ∈ V := by simpa using hw3.2
    have hcol : V.indexOf w < V.length := List.indexOf_lt_length.mpr hwv
    rw [← hwe]
    exact ⟨hrow, hcol⟩

/-- C5 witness: on the example corpus, row 0 of the 3-row matrix receives a
positive entry. -/
theorem c5_matrix_invariants_witness :
    ∃ e ∈ (process (initState 1 0 []) corpusB).entries, e.1 = 0 ∧ 0 < e.2.2 :=
  (c5_matrix_invariants (initState 1 0 []) corpusB).2.2.1 0 (by decide)

namespace MetricsUtils

lemma binarize_nonneg {D W : ℕ} (X : Fin D → Fin W → ℕ) (d : Fin D) (w : Fin W) :
    0 ≤ binarize X d w := by
  unfold binarize
  split <;> norm_num

lemma binarize_le_one {D W : ℕ} (X : Fin D → Fin W → ℕ) (d : Fin D) (w : Fin W) :
    binarize X d w ≤ 1 := by
  unfold binarize
  split <;> norm_num

lemma coo_nonneg {D W : ℕ} (X : Fin D → Fin W → ℕ) (i j : Fin W) :
    0 ≤ coo X i j :=
  Finset.sum_nonneg fun d _ =>
    mul_nonneg (binarize_nonneg X d i) (binarize_nonneg X d j)

lemma nw_nonneg {D W : ℕ} (X : Fin D → Fin W → ℕ) (w : Fin W) :
    0 ≤ nw X w :=
  Finset.sum_nonneg fun d _ => binarize_nonneg X d w

lemma coo_le_nw_left {D W : ℕ} (X : Fin D → Fin W → ℕ) (i j : Fin W) :
    coo X i j ≤ nw X i :=
  Finset.sum_le_sum fun d _ =>
    mul_le_of_le_one_right (binarize_nonneg X d i) (binarize_le_one X d j)

lemma coo_le_nw_right {D W : ℕ} (X : Fin D → Fin W → ℕ) (i j : Fin W) :
    coo X i j ≤ nw X j :=
  Finset.sum_le_sum fun d _ =>
    mul_le_of_le_one_left (binarize_nonneg X d j) (binarize_le_one X d i)

lemma nw_le_card {D W : ℕ} (X : Fin D → Fin W → ℕ) (w : Fin W) :
    nw X w ≤ (D : ℚ) := by
  have h := Finset.sum_le_sum (fun d (_ : d ∈ Finset.univ) => binarize_le_one X d w)
  simpa using h

lemma pcoo_nonneg {D W : ℕ} (X : Fin D → Fin W → ℕ) (i j : Fin W) :
    0 ≤ pcoo X i j :=
  div_nonneg (coo_nonneg X i j) (Nat.cast_nonneg D)

lemma pw_nonneg {D W : ℕ} (X : Fin D → Fin W → ℕ) (w : Fin W) :
    0 ≤ pw X w :=
  div_nonneg (nw_nonneg X w) (Nat.cast_nonneg D)

lemma pcoo_le_pw_left {D W : ℕ} (X : Fin D → Fin W → ℕ) (i j : Fin W) :
    pcoo X i j ≤ pw X i := by
  unfold pcoo pw
  rcases Nat.eq_zero_or_pos D with h | h
  · subst h
    simp
  · have hD : (0 : ℚ) < (D : ℚ) := by exact_mod_cast h
    exact (div_le_div_iff_of_pos_right hD).mpr (coo_le_nw_left X i j)

lemma pcoo_le_pw_right {D W : ℕ} (X : Fin D → Fin W → ℕ) (i j : Fin W) :
    pcoo X i j ≤ pw X j := by
  unfold pcoo pw
  rcases Nat.eq_zero_or_pos D with h | h
  · subst h
    simp
  · have hD : (0 : ℚ) < (D : ℚ) := by exact_mod_cast h
    exact (div_le_div_iff_of_pos_right hD).mpr (coo_le_nw_right X i j)

lemma pw_le_one {D W : ℕ} (X : Fin D → Fin W → ℕ) (w : Fin W) :
    pw X w ≤ 1 := by
  unfold pw
  rcases Nat.eq_zero_or_pos D with h | h
  · subst h
    simp
  · have hD : (0 : ℚ) < (D : ℚ) := by exact_mod_cast h
    exact (div_le_one hD).mpr (nw_le_card X w)

lemma pcoo_pos_iff {D W : ℕ} (X : Fin D → Fin W → ℕ) (i j : Fin W) :
    0 < pcoo X i j ↔ ∃ d, 0 < X d i ∧ 0 < X d j := by
  unfold pcoo
  rcases Nat.eq_zero_or_pos D with h | h
  · subst h
    constructor
    · intro h1
      simp at h1
    · rintro ⟨d, -, -⟩
      exact d.elim0
  · have hD : (0 : ℚ) < (D : ℚ) := by exact_mod_cast h
    have hcoo : 0 < coo X i j ↔ ∃ d, 0 < X d i ∧ 0 < X d j := by
      constructor
      · intro h1
        by_contra hc
        push_neg at hc
        have hz : coo X i j = 0 := by
          apply Finset.sum_eq_zero
          intro d _
          rcases Nat.eq_zero_or_pos (X d i) with h2 | h2
          · simp [binarize, h2]
          · have h3 : X d j = 0 := by
              have := hc d
              omega
            simp [binarize, h3]
        rw [hz] at h1
        exact lt_irrefl 0 h1
      · rintro ⟨d, hdi, hdj⟩
        have hterm : binarize X d i * binarize X d j = 1 := by
          simp [binarize, hdi, hdj]
        have hle : binarize X d i * binarize X d j ≤ coo X i j :=
          Finset.single_le_sum
            (fun e (_ : e ∈ Finset.univ) =>
              mul_nonneg (binarize_nonneg X e i) (binarize_nonneg X e j))
            (Finset.mem_univ d)
        rw [hterm] at hle
        exact lt_of_lt_of_le one_pos hle
    constructor
    · intro h1
      apply hcoo.mp
      by_contra hc
      push_neg at hc
      have hz : coo X i j = 0 := le_antisymm hc (coo_nonneg X i j)
      rw [hz] at h1
      simp at h1
    · intro h1
      exact div_pos (hcoo.mpr h1) hD

end MetricsUtils

/-- C6: `get_npmi(i, j)` returns
`ln(pcoo[i,j] / (pw[i]·pw[j])) / (-ln pcoo[i,j])` whenever some document
contains both words (equivalently `pcoo[i,j] > 0`), and returns the sentinel
`-1` exactly when the pair co-occurs in no document (`pcoo[i,j] = 0`); the
sentinel is a defined value, not an error. -/
theorem c6_npmi_sentinel {D W : ℕ} (X : Fin D → Fin W → ℕ) (i j : Fin W) :
    (pcoo X i j = 0 ↔ ∀ d, X d i = 0 ∨ X d j = 0)
    ∧ ((∀ d, X d i = 0 ∨ X d j = 0) → getNpmi X i j = -1)
    ∧ ((∃ d, 0 < X d i ∧ 0 < X d j) →
        getNpmi X i j
          = Real.log ((pcoo X i j / (pw X i * pw X j) : ℚ) : ℝ)
              / (- Real.log ((pcoo X i j : ℚ) : ℝ))) := by
  have hiff := pcoo_pos_iff X i j
  have h0 : pcoo X i j = 0 ↔ ∀ d, X d i = 0 ∨ X d j = 0 := by
    constructor
    · intro hz d
      by_contra hc
      push_neg at hc
      have hpos : 0 < pcoo X i j :=
        hiff.mpr ⟨d, Nat.pos_of_ne_zero hc.1, Nat.pos_of_ne_zero hc.2⟩
      rw [hz] at hpos
      exact lt_irrefl 0 hpos
    · intro hall
      by_contra hz
      have h1 : 0 < pcoo X i j :=
        lt_of_le_of_ne (pcoo_nonneg X i j) (Ne.symm hz)
      rcases hiff.mp h1 with ⟨d, hdi, hdj⟩
      rcases hall d with h2 | h2 <;> omega
  refine ⟨h0, ?_, ?_⟩
  · intro hall
    unfold getNpmi
    rw [if_neg]
    rw [h0.mpr hall]
    exact lt_irrefl 0
  · intro hex
    unfold getNpmi
    rw [if_pos (hiff.mpr hex)]

/-- C6 witness: on the matrix `Xco` the pair (0, 1) co-occurs in document 1,
so `get_npmi` takes the logarithmic branch. -/
theorem c6_npmi_sentinel_witness :
    getNpmi Xco 0 1
      = Real.log ((pcoo Xco 0 1 / (pw Xco 0 * pw Xco 1) : ℚ) : ℝ)
          / (- Real.log ((pcoo Xco 0 1 : ℚ) : ℝ)) :=
  (c6_npmi_sentinel Xco 0 1).2.2 ⟨1, by decide, by decide⟩

/-- C7 counterexample: on a corpus whose single document contains both
words, the pair (0, 1) co-occurs in every document, `pcoo[0,1] = 1`, the
positive branch of `get_npmi` is taken, and its divisor `-ln(pcoo[0,1])` is
exactly zero — the division by zero the claim says can never happen. -/
theorem c7_counterexample :
    0 < pcoo Xall 0 1 ∧ (- Real.log ((pcoo Xall 0 1 : ℚ) : ℝ)) = 0 := by
  have h1 : pcoo Xall 0 1 = 1 := by decide
  constructor
  · rw [h1]
    norm_num
  · rw [h1]
    simp

/-- C7 amended: whenever `pcoo[i,j] < 1` (the pair does not co-occur in
every document), `get_npmi(i, j)` is a well-defined value in `[-1, 1]` and
the divisor of its positive branch is nonzero; the excluded case
`pcoo[i,j] = 1` does occur (see the counterexample) and there the division
divides by zero. -/
theorem c7_npmi_range {D W : ℕ} (X : Fin D → Fin W → ℕ) (i j : Fin W)
    (h : pcoo X i j < 1) :
    getNpmi X i j ∈ Set.Icc (-1 : ℝ) 1
    ∧ (0 < pcoo X i j → Real.log ((pcoo X i j : ℚ) : ℝ) ≠ 0) := by
  by_cases hp : 0 < pcoo X i j
  · have hpa : pcoo X i j ≤ pw X i := pcoo_le_pw_left X i j
    have hpb : pcoo X i j ≤ pw X j := pcoo_le_pw_right X i j
    have ha1 : pw X i ≤ 1 := pw_le_one X i
    have hb1 : pw X j ≤ 1 := pw_le_one X j
    have hpR : (0 : ℝ) < ((pcoo X i j : ℚ) : ℝ) := by exact_mod_cast hp
    have hp1R : ((pcoo X i j : ℚ) : ℝ) < 1 := by exact_mod_cast h
    have haR : ((pcoo X i j : ℚ) : ℝ) ≤ ((pw X i : ℚ) : ℝ) := by
      exact_mod_cast hpa
    have hbR : ((pcoo X i j : ℚ) : ℝ) ≤ ((pw X j : ℚ) : ℝ) := by
      exact_mod_cast hpb
    have ha1R : ((pw X i : ℚ) : ℝ) ≤ 1 := by exact_mod_cast ha1
    have hb1R : ((pw X j : ℚ) : ℝ) ≤ 1 := by exact_mod_cast hb1
    have ha0R : (0 : ℝ) < ((pw X i : ℚ) : ℝ) := lt_of_lt_of_le hpR haR
    have hb0R : (0 : ℝ) < ((pw X j : ℚ) : ℝ) := lt_of_lt_of_le hpR hbR
    have hab0 : (0 : ℝ) < ((pw X i : ℚ) : ℝ) * ((pw X j : ℚ) : ℝ) :=
      mul_pos ha0R hb0R
    have hlogp_neg : Real.log ((pcoo X i j : ℚ) : ℝ) < 0 :=
      Real.log_neg hpR hp1R
    have ht : (0 : ℝ) < - Real.log ((pcoo X i j : ℚ) : ℝ) := by linarith
    have hcast : ((pcoo X i j / (pw X i * pw X j) : ℚ) : ℝ)
        = ((pcoo X i j : ℚ) : ℝ)
            / (((pw X i : ℚ) : ℝ) * ((pw X j : ℚ) : ℝ)) := by
      push_cast
      ring
    have hnpmi : getNpmi X i j
        = Real.log ((pcoo X i j / (pw X i * pw X j) : ℚ) : ℝ)
            / (- Real.log ((pcoo X i j : ℚ) : ℝ)) := by
      unfold getNpmi
      rw [if_pos hp]
    have hlogdiv : Real.log (((pcoo X i j : ℚ) : ℝ)
          / (((pw X i : ℚ) : ℝ) * ((pw X j : ℚ) : ℝ)))
        = Real.log ((pcoo X i j : ℚ) : ℝ)
            - Real.log (((pw X i : ℚ) : ℝ) * ((pw X j : ℚ) : ℝ)) :=
      Real.log_div (ne_of_gt hpR) (ne_of_gt hab0)
    have hsq : ((pcoo X i j : ℚ) : ℝ) ^ 2
        ≤ ((pw X i : ℚ) : ℝ) * ((pw X j : ℚ) : ℝ) := by
      nlinarith
    have hlogsq : Real.log (((pcoo X i j : ℚ) : ℝ) ^ 2)
        ≤ Real.log (((pw X i : ℚ) : ℝ) * ((pw X j : ℚ) : ℝ)) :=
      Real.log_le_log (by positivity) hsq
    have hlogpow : Real.log (((pcoo X i j : ℚ) : ℝ) ^ 2)
        = 2 * Real.log ((pcoo X i j : ℚ) : ℝ) := by
      rw [Real.log_pow]
      norm_num
    have hab_le_one : ((pw X i : ℚ) : ℝ) * ((pw X j : ℚ) : ℝ) ≤ 1 :=
      mul_le_one₀ ha1R (le_of_lt hb0R) hb1R
    have hlogab_nonpos :
        Real.log (((pw X i : ℚ) : ℝ) * ((pw X j : ℚ) : ℝ)) ≤ 0 :=
      Real.log_nonpos (le_of_lt hab0) hab_le_one
    refine ⟨?_, fun _ => ne_of_lt hlogp_neg⟩
    rw [hnpmi, hcast, hlogdiv]
    constructor
    · rw [le_div_iff₀ ht]
      rw [hlogpow] at hlogsq
      linarith
    · rw [div_le_one ht]
      rw [hlogpow] at hlogsq
      linarith
  · have hz : pcoo X i j = 0 :=
      le_antisymm (not_lt.mp hp) (pcoo_nonneg X i j)
    have hm1 : getNpmi X i j = -1 := by
      unfold getNpmi
      rw [if_neg hp]
    refine ⟨?_, fun hc => absurd hc hp⟩
    rw [hm1]
    constructor
    · exact le_refl _
    · norm_num

/-- C7 witness: on the matrix `Xco` the pair (0, 1) has `pcoo = 1/2 < 1`,
so its NPMI lies in `[-1, 1]` and the divisor is nonzero. -/
theorem c7_npmi_range_witness :
    getNpmi Xco 0 1 ∈ Set.Icc (-1 : ℝ) 1
    ∧ (0 < pcoo Xco 0 1 → Real.log ((pcoo Xco 0 1 : ℚ) : ℝ) ≠ 0) :=
  c7_npmi_range Xco 0 1 (by decide)

/-- C10 witness: the default configuration applied to the non-empty example
corpus with an empty stopword list. -/
theorem c10_default_config_empty_vocab_witness :
    (process (initState 0 0 []) corpusB).wordsInVocab = []
    ∧ (process (initState 0 0 []) corpusB).W = 0
    ∧ (process (initState 0 0 []) corpusB).documents = []
    ∧ (process (initState 0 0 []) corpusB).shape = (0, 0)
    ∧ (process (initState 0 0 []) corpusB).entries = [] :=
  c10_default_config_empty_vocab [] corpusB (by decide)
